import Mathlib

/-!
Shallow embedding of the FreeRTOS lux-meter sketch (`src/labN5/2.ino`) and
proofs of the specified properties.

Modelling conventions:
* C `float` arithmetic is embedded as exact rational arithmetic (`Rat`).
  Every concrete value appearing in the sketch's calibration table, and every
  intermediate produced at the table nodes, is exactly representable, so the
  rational model agrees with the float program on the claims checked here.
* The calibration table is a `List CalibrationPoint`; the sketch's
  `CalibrationSize` is the list length.
* The EEPROM circular log (`saveToEEPROM`) is a state machine over a cursor,
  a byte-ownership map and a count of entries written.
* The keypad task (`vTaskKeyboard`) debounce logic is a fold over a list of
  timed polls; `millis()` is a `Nat` timestamp (timestamps are nondecreasing
  and far from the 32-bit wrap, so `Nat` subtraction matches the unsigned
  subtraction in the sketch).
-/

/-- `struct CalibrationPoint { int adc; float lux; }` -/
structure CalibrationPoint where
  adc : Int
  lux : Rat
deriving DecidableEq

/-- The built-in table `CalibrationData[]` from the sketch. -/
def CalibrationData : List CalibrationPoint :=
  [⟨200, 10⟩, ⟨400, 150⟩, ⟨500, 300⟩, ⟨600, 500⟩,
   ⟨700, 750⟩, ⟨800, 1000⟩, ⟨850, 1200⟩, ⟨900, 1300⟩,
   ⟨950, 1400⟩, ⟨1000, 1500⟩]

/-- `CalibrationSize = sizeof(CalibrationData) / sizeof(CalibrationPoint)`. -/
def CalibrationSize : Nat := CalibrationData.length

/-- The linear-interpolation step of `calculateLuxFromADC`:
`E = E1 + (E2 - E1) * ((float)(D - D1) / (D2 - D1))`. -/
def interpSegment (D : Int) (p q : CalibrationPoint) : Rat :=
  p.lux + (q.lux - p.lux) * (((D : Rat) - (p.adc : Rat)) / ((q.adc : Rat) - (p.adc : Rat)))

/-- The scan loop of `calculateLuxFromADC`:
`for i in [0, size-1): if (D >= data[i].adc && D <= data[i+1].adc) return …`.
Returns the first adjacent pair bracketing `D`, or `none` when the loop
falls through. -/
def findSegment (D : Int) : List CalibrationPoint → Option (CalibrationPoint × CalibrationPoint)
  | p :: q :: rest =>
      if p.adc ≤ D ∧ D ≤ q.adc then some (p, q) else findSegment D (q :: rest)
  | _ => none

/-- The value produced by the scan loop of `calculateLuxFromADC`:
interpolate on the first bracketing pair, or the fall-through `return 0.0`
when the loop completes without a match. -/
def scanInterp (D : Int) (t : List CalibrationPoint) : Rat :=
  match findSegment D t with
  | some (a, b) => interpSegment D a b
  | none => 0

/-- `float calculateLuxFromADC(int D, const CalibrationPoint* data)` from the
sketch: clamp below the first node, clamp above the last node, otherwise scan
for the bracketing pair and interpolate linearly; the fall-through return is
`0.0`. -/
def calculateLuxFromADC (D : Int) (data : List CalibrationPoint) : Rat :=
  match data with
  | [] => 0
  | p :: ps =>
      if D ≤ p.adc then p.lux
      else if (ps.getLastD p).adc ≤ D then (ps.getLastD p).lux
      else scanInterp D (p :: ps)

/-- Strict ascent of a calibration table in both fields — the data-model
invariant the spec assumes for the table («sorted ascending by rawSample …
monotonically increasing in both fields»). -/
def StrictIncr (p q : CalibrationPoint) : Prop :=
  p.adc < q.adc ∧ p.lux < q.lux

instance : DecidableRel StrictIncr := fun p q =>
  inferInstanceAs (Decidable (p.adc < q.adc ∧ p.lux < q.lux))

/-- Per-node absolute error of the self-test (`printCalibrationTable`):
`error = measuredLux - referenceLux`. -/
def errorAt (table : List CalibrationPoint) (p : CalibrationPoint) : Rat :=
  calculateLuxFromADC p.adc table - p.lux

/-- Per-node relative error of the self-test:
`relativeError = (error / referenceLux) * 100.0`. -/
def relErrorAt (table : List CalibrationPoint) (p : CalibrationPoint) : Rat :=
  (errorAt table p / p.lux) * 100

/-- The `maxRelativeError` accumulator of `printCalibrationTable`: starts at
`0`, and each node replaces it by its signed relative error whenever
`fabs(relativeError) > fabs(maxRelativeError)`. -/
def maxRelativeError (table : List CalibrationPoint) : Rat :=
  table.foldl (fun m p => if |m| < |relErrorAt table p| then relErrorAt table p else m) 0

/-- The `sumRelativeError` accumulator: sum of `fabs(relativeError)` over all
nodes. -/
def sumRelativeError (table : List CalibrationPoint) : Rat :=
  table.foldl (fun s p => s + |relErrorAt table p|) 0

/-- `avgError = sumRelativeError / CalibrationSize`. -/
def avgError (table : List CalibrationPoint) : Rat :=
  sumRelativeError table / (table.length : Rat)

/-- The accuracy-class ladder printed at the end of `printCalibrationTable`:
`fabs(maxRelativeError) <= 1.0 → 0.5`, `<= 2.0 → 1.0`, `<= 5.0 → 2.5`,
otherwise `4.0`. -/
def accuracyClass (table : List CalibrationPoint) : Rat :=
  if |maxRelativeError table| ≤ 1 then 1/2
  else if |maxRelativeError table| ≤ 2 then 1
  else if |maxRelativeError table| ≤ 5 then 5/2
  else 4

/-- `sizeof(LogEntry)` on the sketch's AVR target (Arduino UNO, per the
`EEPROM_SIZE` comment): `float lux` (4) + `uint32_t timestamp` (4) +
`char label[21]` (21), with byte alignment, hence 29 bytes. -/
def LogEntrySize : Nat := 29

/-- `const int EEPROM_SIZE = 1024`. -/
def EEPROM_SIZE : Nat := 1024

/-- State of the EEPROM circular log: the static `currentAddress` cursor of
`saveToEEPROM`, the byte region (each offset maps to the 1-based index of
the entry whose serialization last wrote it, `none` if never written), and
the number of entries written so far. -/
structure EEPROMState where
  currentAddress : Nat
  mem : Nat → Option Nat
  written : Nat

/-- The address a call to `saveToEEPROM` actually writes at: the cursor is
reset to `0` first when `currentAddress + sizeof(entry) >= EEPROM_SIZE`. -/
def writeAddr (cur : Nat) : Nat :=
  if EEPROM_SIZE ≤ cur + LogEntrySize then 0 else cur

/-- One call of `void saveToEEPROM(const LogEntry& entry)`: optionally reset
the cursor, `EEPROM.put(currentAddress, entry)` (which writes the
`sizeof(entry)` bytes starting at the write address), then advance
`currentAddress += sizeof(entry)`. -/
def saveToEEPROM (s : EEPROMState) : EEPROMState :=
  let addr := writeAddr s.currentAddress
  { currentAddress := addr + LogEntrySize
    mem := fun o => if addr ≤ o ∧ o < addr + LogEntrySize then some (s.written + 1) else s.mem o
    written := s.written + 1 }

/-- Initial EEPROM-log state: `static int currentAddress = 0`, nothing
written yet. -/
def initEEPROM : EEPROMState :=
  { currentAddress := 0, mem := fun _ => none, written := 0 }

/-- The state after `n` calls to `saveToEEPROM` from the initial state. -/
def eepromRun : Nat → EEPROMState
  | 0 => initEEPROM
  | n + 1 => saveToEEPROM (eepromRun n)

/-- State of `vTaskKeyboard`'s debounce logic: `char lastKey` (0 = none),
`unsigned long lastKeyTime`, plus a count of accepted key presses (each
acceptance enters the dispatch `switch`). -/
structure KeyboardState where
  lastKey : Nat
  lastKeyTime : Nat
  dispatchCount : Nat

/-- `char lastKey = 0; unsigned long lastKeyTime = 0;` and no dispatches. -/
def initKeyboard : KeyboardState :=
  { lastKey := 0, lastKeyTime := 0, dispatchCount := 0 }

/-- One iteration of `vTaskKeyboard`'s loop. `poll = (now, key)` where `now`
is `millis()` and `key` is `keypad.getKey()` (`0` = no key). First the
accept-and-dispatch branch (`if (key && key != lastKey)` records the key and
time and dispatches), then the debounce reset
(`if (millis() - lastKeyTime > 200) lastKey = 0`). -/
def keyboardPoll (s : KeyboardState) (poll : Nat × Nat) : KeyboardState :=
  let now := poll.1
  let key := poll.2
  let s1 :=
    if key ≠ 0 ∧ key ≠ s.lastKey then
      { lastKey := key, lastKeyTime := now, dispatchCount := s.dispatchCount + 1 }
    else s
  if 200 < now - s1.lastKeyTime then { s1 with lastKey := 0 } else s1

/-- The keyboard task run over a finite schedule of polls. -/
def keyboardRun (polls : List (Nat × Nat)) : KeyboardState :=
  polls.foldl keyboardPoll initKeyboard

example : calculateLuxFromADC 300 CalibrationData = 80 := by
  norm_num [calculateLuxFromADC, CalibrationData, scanInterp, findSegment, interpSegment,
    List.getLastD]

example : calculateLuxFromADC 650 CalibrationData = 625 := by
  norm_num [calculateLuxFromADC, CalibrationData, scanInterp, findSegment, interpSegment,
    List.getLastD]

/-- Unfolding equation of `calculateLuxFromADC` on a nonempty table. -/
theorem calculateLuxFromADC_cons (D : Int) (p : CalibrationPoint) (ps : List CalibrationPoint) :
    calculateLuxFromADC D (p :: ps) =
      if D ≤ p.adc then p.lux
      else if (ps.getLastD p).adc ≤ D then (ps.getLastD p).lux
      else scanInterp D (p :: ps) := rfl

/-- Unfolding equation of the scan loop on a table with at least two rows. -/
theorem findSegment_cons_cons (D : Int) (p q : CalibrationPoint) (rest : List CalibrationPoint) :
    findSegment D (p :: q :: rest) =
      if p.adc ≤ D ∧ D ≤ q.adc then some (p, q) else findSegment D (q :: rest) := rfl

/-- Unfolding equation of the scan value on a table with at least two rows. -/
theorem scanInterp_cons_cons (D : Int) (p q : CalibrationPoint) (rest : List CalibrationPoint) :
    scanInterp D (p :: q :: rest) =
      if p.adc ≤ D ∧ D ≤ q.adc then interpSegment D p q else scanInterp D (q :: rest) := by
  unfold scanInterp
  rw [findSegment_cons_cons]
  by_cases h : p.adc ≤ D ∧ D ≤ q.adc
  · rw [if_pos h, if_pos h]
  · rw [if_neg h, if_neg h]

/-- The interpolation segment evaluates to the left node value at the left
endpoint. -/
theorem interpSegment_left (p q : CalibrationPoint) : interpSegment p.adc p q = p.lux := by
  simp [interpSegment]

/-- The interpolation segment evaluates to the right node value at the right
endpoint (the nodes' raw samples being distinct). -/
theorem interpSegment_right (p q : CalibrationPoint) (h : p.adc < q.adc) :
    interpSegment q.adc p q = q.lux := by
  unfold interpSegment
  have hne : (q.adc : Rat) - (p.adc : Rat) ≠ 0 := by
    have hc : (p.adc : Rat) < (q.adc : Rat) := by exact_mod_cast h
    linarith
  rw [div_self hne]
  ring

/-- On a segment rising in both fields, the interpolated value is monotone in
the raw input. -/
theorem interpSegment_mono (p q : CalibrationPoint) (hadc : p.adc < q.adc)
    (hlux : p.lux ≤ q.lux) (D1 D2 : Int) (h12 : D1 ≤ D2) :
    interpSegment D1 p q ≤ interpSegment D2 p q := by
  unfold interpSegment
  have hden : (0 : Rat) < (q.adc : Rat) - (p.adc : Rat) := by
    have hc : (p.adc : Rat) < (q.adc : Rat) := by exact_mod_cast hadc
    linarith
  have hnum : ((D1 : Rat) - (p.adc : Rat)) ≤ ((D2 : Rat) - (p.adc : Rat)) := by
    have hc : ((D1 : Rat)) ≤ ((D2 : Rat)) := by exact_mod_cast h12
    linarith
  have hslope : (0 : Rat) ≤ q.lux - p.lux := by linarith
  have hdiv : ((D1 : Rat) - (p.adc : Rat)) / ((q.adc : Rat) - (p.adc : Rat)) ≤
      ((D2 : Rat) - (p.adc : Rat)) / ((q.adc : Rat) - (p.adc : Rat)) :=
    (div_le_div_iff_of_pos_right hden).mpr hnum
  have := mul_le_mul_of_nonneg_left hdiv hslope
  linarith

/-- On a segment rising in both fields, the interpolated value stays between
the two node values for raw inputs inside the segment. -/
theorem interpSegment_bounds (p q : CalibrationPoint) (hadc : p.adc < q.adc)
    (hlux : p.lux ≤ q.lux) (D : Int) (h1 : p.adc ≤ D) (h2 : D ≤ q.adc) :
    p.lux ≤ interpSegment D p q ∧ interpSegment D p q ≤ q.lux := by
  constructor
  · have h := interpSegment_mono p q hadc hlux p.adc D h1
    rwa [interpSegment_left] at h
  · have h := interpSegment_mono p q hadc hlux D q.adc h2
    rwa [interpSegment_right p q hadc] at h

/-- In a strictly increasing table, the head is (weakly) below the last
point in both fields. -/
theorem chain_le_getLastD :
    ∀ (ps : List CalibrationPoint) (p : CalibrationPoint),
      List.Chain' StrictIncr (p :: ps) →
      p.adc ≤ (ps.getLastD p).adc ∧ p.lux ≤ (ps.getLastD p).lux
  | [], p, _ => by simp
  | q :: qs, p, h => by
    rw [List.chain'_cons] at h
    have ih := chain_le_getLastD qs q h.2
    simp only [List.getLastD_cons]
    exact ⟨le_trans (le_of_lt h.1.1) ih.1, le_trans (le_of_lt h.1.2) ih.2⟩

/-- In a strictly increasing table with at least two points, the head is
strictly below the last point in both fields. -/
theorem chain_lt_getLastD (p q : CalibrationPoint) (qs : List CalibrationPoint)
    (h : List.Chain' StrictIncr (p :: q :: qs)) :
    p.adc < ((q :: qs).getLastD p).adc ∧ p.lux < ((q :: qs).getLastD p).lux := by
  rw [List.chain'_cons] at h
  have hle := chain_le_getLastD qs q h.2
  simp only [List.getLastD_cons]
  exact ⟨lt_of_lt_of_le h.1.1 hle.1, lt_of_lt_of_le h.1.2 hle.2⟩

/-- Lower bound for the scan value: at or above the head's raw sample and at
or below the last raw sample, the scan value is at least the head's value. -/
theorem scanInterp_lb :
    ∀ (rest : List CalibrationPoint) (p q : CalibrationPoint) (D : Int),
      List.Chain' StrictIncr (p :: q :: rest) →
      p.adc ≤ D → D ≤ ((q :: rest).getLastD p).adc →
      p.lux ≤ scanInterp D (p :: q :: rest)
  | [], p, q, D, hch, hd, hl => by
    rw [List.chain'_cons] at hch
    simp only [List.getLastD_cons, List.getLastD_nil] at hl
    rw [scanInterp_cons_cons, if_pos ⟨hd, hl⟩]
    exact (interpSegment_bounds p q hch.1.1 (le_of_lt hch.1.2) D hd hl).1
  | r :: rs, p, q, D, hch, hd, hl => by
    rw [List.chain'_cons] at hch
    rw [scanInterp_cons_cons]
    by_cases hq : D ≤ q.adc
    · rw [if_pos ⟨hd, hq⟩]
      exact (interpSegment_bounds p q hch.1.1 (le_of_lt hch.1.2) D hd hq).1
    · rw [if_neg (fun hand => hq hand.2)]
      have hql : q.adc ≤ D := le_of_not_le hq
      have ih := scanInterp_lb rs q r D hch.2 hql
        (by simpa only [List.getLastD_cons] using hl)
      exact le_trans (le_of_lt hch.1.2) ih

/-- Upper bound for the scan value: at or above the head's raw sample and at
or below the last raw sample, the scan value is at most the last value. -/
theorem scanInterp_ub :
    ∀ (rest : List CalibrationPoint) (p q : CalibrationPoint) (D : Int),
      List.Chain' StrictIncr (p :: q :: rest) →
      p.adc ≤ D → D ≤ ((q :: rest).getLastD p).adc →
      scanInterp D (p :: q :: rest) ≤ ((q :: rest).getLastD p).lux
  | [], p, q, D, hch, hd, hl => by
    rw [List.chain'_cons] at hch
    simp only [List.getLastD_cons, List.getLastD_nil] at hl ⊢
    rw [scanInterp_cons_cons, if_pos ⟨hd, hl⟩]
    exact (interpSegment_bounds p q hch.1.1 (le_of_lt hch.1.2) D hd hl).2
  | r :: rs, p, q, D, hch, hd, hl => by
    have hch' := hch
    rw [List.chain'_cons] at hch'
    rw [List.getLastD_cons] at hl
    rw [List.getLastD_cons, scanInterp_cons_cons D p q (r :: rs)]
    by_cases hq : D ≤ q.adc
    · rw [if_pos ⟨hd, hq⟩]
      have hmid := (interpSegment_bounds p q hch'.1.1 (le_of_lt hch'.1.2) D hd hq).2
      have hlast := (chain_le_getLastD (r :: rs) q hch'.2).2
      exact le_trans hmid hlast
    · rw [if_neg (fun hand => hq hand.2)]
      exact scanInterp_ub rs q r D hch'.2 (le_of_not_le hq) hl

/-- Monotonicity of the scan value over the covered interior domain. -/
theorem scanInterp_mono :
    ∀ (rest : List CalibrationPoint) (p q : CalibrationPoint) (D1 D2 : Int),
      List.Chain' StrictIncr (p :: q :: rest) →
      p.adc ≤ D1 → D1 ≤ D2 → D2 ≤ ((q :: rest).getLastD p).adc →
      scanInterp D1 (p :: q :: rest) ≤ scanInterp D2 (p :: q :: rest)
  | [], p, q, D1, D2, hch, hd, h12, hl => by
    rw [List.chain'_cons] at hch
    simp only [List.getLastD_cons, List.getLastD_nil] at hl
    rw [scanInterp_cons_cons, scanInterp_cons_cons,
      if_pos ⟨hd, le_trans h12 hl⟩, if_pos ⟨le_trans hd h12, hl⟩]
    exact interpSegment_mono p q hch.1.1 (le_of_lt hch.1.2) D1 D2 h12
  | r :: rs, p, q, D1, D2, hch, hd, h12, hl => by
    have hch' := hch
    rw [List.chain'_cons] at hch'
    rw [List.getLastD_cons] at hl
    rw [scanInterp_cons_cons D1 p q (r :: rs), scanInterp_cons_cons D2 p q (r :: rs)]
    by_cases h2 : D2 ≤ q.adc
    · rw [if_pos (show p.adc ≤ D1 ∧ D1 ≤ q.adc from ⟨hd, le_trans h12 h2⟩),
        if_pos (show p.adc ≤ D2 ∧ D2 ≤ q.adc from ⟨le_trans hd h12, h2⟩)]
      exact interpSegment_mono p q hch'.1.1 (le_of_lt hch'.1.2) D1 D2 h12
    · have hc2 : ¬ (p.adc ≤ D2 ∧ D2 ≤ q.adc) := fun hand => h2 hand.2
      by_cases h1 : D1 ≤ q.adc
      · rw [if_pos (show p.adc ≤ D1 ∧ D1 ≤ q.adc from ⟨hd, h1⟩), if_neg hc2]
        have hup := (interpSegment_bounds p q hch'.1.1 (le_of_lt hch'.1.2) D1 hd h1).2
        have hlo := scanInterp_lb rs q r D2 hch'.2 (le_of_not_le h2) hl
        exact le_trans hup hlo
      · have hc1 : ¬ (p.adc ≤ D1 ∧ D1 ≤ q.adc) := fun hand => h1 hand.2
        rw [if_neg hc1, if_neg hc2]
        exact scanInterp_mono rs q r D1 D2 hch'.2 (le_of_not_le h1) h12 hl

/-- C4: for every table strictly increasing in both rawSample and
referenceValue, `calculateLuxFromADC` is non-decreasing in its input. -/
theorem calculateLuxFromADC_mono (data : List CalibrationPoint)
    (hch : List.Chain' StrictIncr data) (D1 D2 : Int) (h12 : D1 ≤ D2) :
    calculateLuxFromADC D1 data ≤ calculateLuxFromADC D2 data := by
  cases data with
  | nil => simp [calculateLuxFromADC]
  | cons p ps =>
    rw [calculateLuxFromADC_cons, calculateLuxFromADC_cons]
    by_cases h1lo : D1 ≤ p.adc
    · rw [if_pos h1lo]
      by_cases h2lo : D2 ≤ p.adc
      · rw [if_pos h2lo]
      · rw [if_neg h2lo]
        by_cases h2hi : (ps.getLastD p).adc ≤ D2
        · rw [if_pos h2hi]
          exact (chain_le_getLastD ps p hch).2
        · rw [if_neg h2hi]
          cases ps with
          | nil => simp only [List.getLastD_nil] at h2hi; omega
          | cons q rest =>
            exact scanInterp_lb rest p q D2 hch (le_of_not_le h2lo)
              (le_of_not_le h2hi)
    · rw [if_neg h1lo]
      have h2lo : ¬ D2 ≤ p.adc := fun h => h1lo (le_trans h12 h)
      rw [if_neg h2lo]
      by_cases h1hi : (ps.getLastD p).adc ≤ D1
      · rw [if_pos h1hi, if_pos (le_trans h1hi h12)]
      · rw [if_neg h1hi]
        cases ps with
        | nil => simp only [List.getLastD_nil] at h1hi; omega
        | cons q rest =>
          by_cases h2hi : ((q :: rest).getLastD p).adc ≤ D2
          · rw [if_pos h2hi]
            have hub := scanInterp_ub rest p q D1 hch (le_of_not_le h1lo)
              (le_of_not_le h1hi)
            exact hub
          · rw [if_neg h2hi]
            exact scanInterp_mono rest p q D1 D2 hch (le_of_not_le h1lo) h12
              (le_of_not_le h2hi)

/-- Witness for C4 on the built-in table at `D1 = 300 ≤ D2 = 650`. -/
theorem calculateLuxFromADC_mono_witness :
    calculateLuxFromADC 300 CalibrationData ≤ calculateLuxFromADC 650 CalibrationData :=
  calculateLuxFromADC_mono CalibrationData
    (by norm_num [CalibrationData, List.chain'_cons, StrictIncr]) 300 650 (by norm_num)

/-- C5: for every raw input `D` with `D ≤ table[0].rawSample`,
`calculateLuxFromADC` returns exactly `table[0].referenceValue` (clamp low). -/
theorem calculateLuxFromADC_clamp_low (p : CalibrationPoint) (ps : List CalibrationPoint)
    (D : Int) (h : D ≤ p.adc) :
    calculateLuxFromADC D (p :: ps) = p.lux := by
  simp [calculateLuxFromADC, h]

/-- Witness for C5 at `D = 100` on the built-in table. -/
theorem calculateLuxFromADC_clamp_low_witness :
    calculateLuxFromADC 100 CalibrationData = 10 := by
  have h := calculateLuxFromADC_clamp_low ⟨200, 10⟩
    [⟨400, 150⟩, ⟨500, 300⟩, ⟨600, 500⟩, ⟨700, 750⟩, ⟨800, 1000⟩,
     ⟨850, 1200⟩, ⟨900, 1300⟩, ⟨950, 1400⟩, ⟨1000, 1500⟩] 100 (by norm_num)
  simpa [CalibrationData] using h

/-- C6: for a table sorted strictly ascending (the spec's data-model
invariant) and every raw input `D` at or above the last node's rawSample,
`calculateLuxFromADC` returns exactly the last node's referenceValue
(clamp high). -/
theorem calculateLuxFromADC_clamp_high (p : CalibrationPoint) (ps : List CalibrationPoint)
    (D : Int) (hch : List.Chain' StrictIncr (p :: ps))
    (h : (ps.getLastD p).adc ≤ D) :
    calculateLuxFromADC D (p :: ps) = (ps.getLastD p).lux := by
  by_cases hlow : D ≤ p.adc
  · cases ps with
    | nil => simp [calculateLuxFromADC, hlow]
    | cons q qs =>
      have := (chain_lt_getLastD p q qs hch).1
      omega
  · rw [calculateLuxFromADC_cons, if_neg hlow, if_pos h]

/-- Witness for C6 at `D = 2000` on the built-in table. -/
theorem calculateLuxFromADC_clamp_high_witness :
    calculateLuxFromADC 2000 CalibrationData = 1500 := by
  have h := calculateLuxFromADC_clamp_high ⟨200, 10⟩
    [⟨400, 150⟩, ⟨500, 300⟩, ⟨600, 500⟩, ⟨700, 750⟩, ⟨800, 1000⟩,
     ⟨850, 1200⟩, ⟨900, 1300⟩, ⟨950, 1400⟩, ⟨1000, 1500⟩] 2000
    (by norm_num [List.chain'_cons, StrictIncr]) (by norm_num [List.getLastD])
  simpa [CalibrationData, List.getLastD] using h

/-- C1: for every calibration point `p` of the built-in table,
`calculateLuxFromADC(p.adc, CalibrationData)` returns exactly `p.lux`, so the
self-test's per-node error at `p` is exactly zero. -/
theorem calculateLuxFromADC_at_nodes :
    ∀ p ∈ CalibrationData,
      calculateLuxFromADC p.adc CalibrationData = p.lux ∧ errorAt CalibrationData p = 0 := by
  simp only [CalibrationData, List.forall_mem_cons, List.forall_mem_nil, errorAt, and_true]
  norm_num [calculateLuxFromADC, CalibrationData, scanInterp, findSegment, interpSegment,
    List.getLastD]

/-- Witness for C1 at the node `(500, 300)`. -/
theorem calculateLuxFromADC_at_nodes_witness :
    calculateLuxFromADC 500 CalibrationData = 300 ∧ errorAt CalibrationData ⟨500, 300⟩ = 0 :=
  calculateLuxFromADC_at_nodes ⟨500, 300⟩ (by simp [CalibrationData])

/-- C8: the self-test derives the accuracy class from the maximum relative
error `m` (compared by absolute value) as: `|m| ≤ 1` yields class `0.5`;
otherwise `|m| ≤ 2` yields class `1.0`; otherwise `|m| ≤ 5` yields class
`2.5`; otherwise class `4.0`. -/
theorem accuracyClass_buckets (table : List CalibrationPoint)
    (m : Rat) (hm : m = maxRelativeError table) :
    (|m| ≤ 1 → accuracyClass table = 1/2) ∧
    (1 < |m| → |m| ≤ 2 → accuracyClass table = 1) ∧
    (2 < |m| → |m| ≤ 5 → accuracyClass table = 5/2) ∧
    (5 < |m| → accuracyClass table = 4) := by
  subst hm
  unfold accuracyClass
  refine ⟨fun h1 => ?_, fun h1 h2 => ?_, fun h2 h5 => ?_, fun h5 => ?_⟩
  · rw [if_pos h1]
  · rw [if_neg (by linarith), if_pos h2]
  · rw [if_neg (by linarith), if_neg (by linarith), if_pos h5]
  · rw [if_neg (by linarith), if_neg (by linarith), if_neg (by linarith)]

/-- Witness for C8: on the built-in table the maximum relative error is `0`,
so the derived accuracy class is `0.5`. -/
theorem accuracyClass_buckets_witness : accuracyClass CalibrationData = 1/2 :=
  (accuracyClass_buckets CalibrationData (maxRelativeError CalibrationData) rfl).1
    (by norm_num [maxRelativeError, relErrorAt, errorAt, CalibrationData,
          calculateLuxFromADC, scanInterp, findSegment, interpSegment, List.getLastD])

/-- The scan loop always finds a bracketing adjacent pair for raw inputs
strictly between the head's and the last node's raw samples; no ordering of
the table is even required, only the strict interior position of `D`. -/
theorem findSegment_finds :
    ∀ (rest : List CalibrationPoint) (p q : CalibrationPoint) (D : Int),
      p.adc < D → D < ((q :: rest).getLastD p).adc →
      ∃ a b, findSegment D (p :: q :: rest) = some (a, b) ∧ a.adc ≤ D ∧ D ≤ b.adc
  | [], p, q, D, hlo, hhi => by
    simp only [List.getLastD_cons, List.getLastD_nil] at hhi
    exact ⟨p, q,
      by rw [findSegment_cons_cons, if_pos ⟨le_of_lt hlo, le_of_lt hhi⟩],
      le_of_lt hlo, le_of_lt hhi⟩
  | r :: rs, p, q, D, hlo, hhi => by
    rw [List.getLastD_cons] at hhi
    by_cases hq : D ≤ q.adc
    · exact ⟨p, q,
        by rw [findSegment_cons_cons, if_pos ⟨le_of_lt hlo, hq⟩],
        le_of_lt hlo, hq⟩
    · have hq' : q.adc < D := lt_of_not_le hq
      obtain ⟨a, b, hfind, ha, hb⟩ := findSegment_finds rs q r D hq' hhi
      refine ⟨a, b, ?_, ha, hb⟩
      rw [findSegment_cons_cons, if_neg (fun hand => hq hand.2)]
      exact hfind

/-- C10: for every table of size ≥ 2 strictly increasing in rawSample and
every raw input `D` strictly between the first and last rawSample,
the ascending scan finds an adjacent pair `(a, b)` with
`a.adc ≤ D ≤ b.adc`, so `calculateLuxFromADC` interpolates on it and never
reaches the final fallback branch returning `0.0`. -/
theorem calculateLuxFromADC_no_fallback (p q : CalibrationPoint)
    (rest : List CalibrationPoint) (D : Int)
    (hch : List.Chain' (fun a b : CalibrationPoint => a.adc < b.adc) (p :: q :: rest))
    (hlo : p.adc < D) (hhi : D < ((q :: rest).getLastD p).adc) :
    ∃ a b, findSegment D (p :: q :: rest) = some (a, b) ∧ a.adc ≤ D ∧ D ≤ b.adc ∧
      calculateLuxFromADC D (p :: q :: rest) = interpSegment D a b := by
  obtain ⟨a, b, hfind, ha, hb⟩ := findSegment_finds rest p q D hlo hhi
  refine ⟨a, b, hfind, ha, hb, ?_⟩
  rw [calculateLuxFromADC_cons, if_neg (by omega), if_neg (by omega)]
  unfold scanInterp
  rw [hfind]

/-- Witness for C10 on the built-in table at the interior input `D = 820`. -/
theorem calculateLuxFromADC_no_fallback_witness :
    ∃ a b, findSegment 820
        (⟨200, 10⟩ :: ⟨400, 150⟩ ::
          [⟨500, 300⟩, ⟨600, 500⟩, ⟨700, 750⟩, ⟨800, 1000⟩,
           ⟨850, 1200⟩, ⟨900, 1300⟩, ⟨950, 1400⟩, ⟨1000, 1500⟩]) = some (a, b) ∧
      a.adc ≤ 820 ∧ (820 : Int) ≤ b.adc ∧
      calculateLuxFromADC 820
        (⟨200, 10⟩ :: ⟨400, 150⟩ ::
          [⟨500, 300⟩, ⟨600, 500⟩, ⟨700, 750⟩, ⟨800, 1000⟩,
           ⟨850, 1200⟩, ⟨900, 1300⟩, ⟨950, 1400⟩, ⟨1000, 1500⟩]) = interpSegment 820 a b :=
  calculateLuxFromADC_no_fallback ⟨200, 10⟩ ⟨400, 150⟩
    [⟨500, 300⟩, ⟨600, 500⟩, ⟨700, 750⟩, ⟨800, 1000⟩,
     ⟨850, 1200⟩, ⟨900, 1300⟩, ⟨950, 1400⟩, ⟨1000, 1500⟩] 820
    (by norm_num [List.chain'_cons]) (by norm_num) (by norm_num [List.getLastD])

/-- The write cursor is a multiple of `sizeof(LogEntry)` after any number of
`saveToEEPROM` calls. -/
theorem eepromRun_aligned (n : Nat) :
    (eepromRun n).currentAddress % LogEntrySize = 0 := by
  induction n with
  | zero => rfl
  | succ n ih =>
    have h : (eepromRun (n + 1)).currentAddress =
        (if EEPROM_SIZE ≤ (eepromRun n).currentAddress + LogEntrySize then 0
         else (eepromRun n).currentAddress) + LogEntrySize := rfl
    rw [h]
    simp only [LogEntrySize, EEPROM_SIZE] at ih ⊢
    split <;> omega

/-- C9: across every sequence of `saveToEEPROM` calls from the initial
state, the write cursor is a multiple of `sizeof(LogEntry)` (never inside a
record), every write of a `LogEntry` lies entirely within the store bounds
`[0, 1024)`, and the cursor after a call sits exactly at the end of the
completed write. -/
theorem saveToEEPROM_invariants (n : Nat) :
    (eepromRun n).currentAddress % LogEntrySize = 0 ∧
    writeAddr (eepromRun n).currentAddress + LogEntrySize ≤ EEPROM_SIZE ∧
    (eepromRun (n + 1)).currentAddress =
      writeAddr (eepromRun n).currentAddress + LogEntrySize := by
  refine ⟨eepromRun_aligned n, ?_, rfl⟩
  unfold writeAddr
  simp only [LogEntrySize, EEPROM_SIZE]
  split <;> omega

/-- C2: on every reachable log state, `saveToEEPROM` resets the write cursor
to offset 0 before the write exactly when the serialized entry would not fit
before the capacity boundary (1024); otherwise it writes at the current
cursor; in either case the cursor ends up advanced by `sizeof(LogEntry)`
past the write address. -/
theorem saveToEEPROM_reset_iff (s : EEPROMState) (h : ∃ n, s = eepromRun n) :
    (EEPROM_SIZE < s.currentAddress + LogEntrySize → writeAddr s.currentAddress = 0) ∧
    (s.currentAddress + LogEntrySize ≤ EEPROM_SIZE →
      writeAddr s.currentAddress = s.currentAddress) ∧
    (saveToEEPROM s).currentAddress = writeAddr s.currentAddress + LogEntrySize := by
  obtain ⟨n, rfl⟩ := h
  have hal := eepromRun_aligned n
  refine ⟨fun hlt => ?_, fun hle => ?_, rfl⟩
  · unfold writeAddr
    rw [if_pos (le_of_lt hlt)]
  · have hne : ¬ (EEPROM_SIZE ≤ (eepromRun n).currentAddress + LogEntrySize) := by
      simp only [LogEntrySize, EEPROM_SIZE] at hal hle ⊢
      omega
    unfold writeAddr
    rw [if_neg hne]

set_option maxRecDepth 10000 in
/-- Witness for C2 at the reachable state after 35 writes (cursor 1015):
the 36th entry would cross the 1024-byte boundary, so the cursor is reset
and the write lands at offset 0, and the cursor then advances by the entry
size. -/
theorem saveToEEPROM_reset_iff_witness :
    writeAddr (eepromRun 35).currentAddress = 0 ∧
    (saveToEEPROM (eepromRun 35)).currentAddress =
      writeAddr (eepromRun 35).currentAddress + LogEntrySize := by
  have h := saveToEEPROM_reset_iff (eepromRun 35) ⟨35, rfl⟩
  exact ⟨h.1 (by decide), h.2.2⟩

set_option maxRecDepth 10000 in
/-- C3: with capacity `C = 1024` and entry size `S = sizeof(LogEntry)`,
`floor(C/S) + 1 = 36`; after 35 calls the cursor sits at 1015, the 36th call
resets the cursor and writes at offset 0, and the bytes `[0, S)`, which held
entry 1 after 35 calls, hold entry 36 after the 36th call. -/
theorem saveToEEPROM_wraparound :
    EEPROM_SIZE / LogEntrySize + 1 = 36 ∧
    (eepromRun 35).currentAddress = 1015 ∧
    writeAddr (eepromRun 35).currentAddress = 0 ∧
    ∀ o, o < LogEntrySize →
      (eepromRun 35).mem o = some 1 ∧ (eepromRun 36).mem o = some 36 := by
  exact ⟨by decide, by decide, by decide, by decide⟩

set_option maxRecDepth 10000 in
/-- Witness for C3 at byte offset 0: after 35 calls it belongs to entry 1,
after 36 calls to entry 36. -/
theorem saveToEEPROM_wraparound_witness :
    (eepromRun 35).mem 0 = some 1 ∧ (eepromRun 36).mem 0 = some 36 :=
  saveToEEPROM_wraparound.2.2.2 0 (by decide)

/-- A poll that reports no key leaves the keyboard state unchanged, except
possibly clearing `lastKey` through the debounce reset. -/
theorem keyboardPoll_nokey (s : KeyboardState) (now : Nat) :
    keyboardPoll s (now, 0) = s ∨ keyboardPoll s (now, 0) = { s with lastKey := 0 } := by
  simp only [keyboardPoll]
  rw [if_neg (show ¬((0:Nat) ≠ 0 ∧ (0:Nat) ≠ s.lastKey) by simp)]
  split
  · right; rfl
  · left; rfl

/-- A no-key poll from the initial keyboard state changes nothing. -/
theorem keyboardPoll_init_nokey (now : Nat) :
    keyboardPoll initKeyboard (now, 0) = initKeyboard := by
  simp only [keyboardPoll, initKeyboard]
  rw [if_neg (show ¬((0:Nat) ≠ 0 ∧ (0:Nat) ≠ 0) by simp)]
  split <;> rfl

/-- From the initial state, a first poll reporting key `k ≠ 0` accepts it:
one dispatch, `lastKey = k`, `lastKeyTime =` the poll time. -/
theorem keyboardPoll_accept (k t0 : Nat) (hk : k ≠ 0) :
    keyboardPoll initKeyboard (t0, k) = ⟨k, t0, 1⟩ := by
  simp only [keyboardPoll, initKeyboard]
  rw [if_pos (show k ≠ 0 ∧ k ≠ 0 from ⟨hk, hk⟩)]
  dsimp only
  rw [if_neg (by omega)]

/-- A poll of the still-held key within 200 ms of its acceptance changes
nothing: the key equals `lastKey`, and the debounce window has not elapsed. -/
theorem keyboardPoll_held (k t0 c t : Nat) (ht0 : t0 ≤ t) (ht200 : t < t0 + 200) :
    keyboardPoll ⟨k, t0, c⟩ (t, k) = ⟨k, t0, c⟩ := by
  simp only [keyboardPoll]
  rw [if_neg (show ¬(k ≠ 0 ∧ k ≠ k) by simp)]
  dsimp only
  rw [if_neg (by omega)]

/-- Idle polls before any press keep the keyboard in its initial state. -/
theorem keyboardRun_pre :
    ∀ (pre : List (Nat × Nat)), (∀ x ∈ pre, x.2 = 0) →
      pre.foldl keyboardPoll initKeyboard = initKeyboard
  | [], _ => rfl
  | a :: as, h => by
    obtain ⟨t, key⟩ := a
    have hkey : key = 0 := h (t, key) (List.mem_cons_self _ _)
    subst hkey
    rw [List.foldl_cons, keyboardPoll_init_nokey]
    exact keyboardRun_pre as (fun x hx => h x (List.mem_cons_of_mem _ hx))

/-- Polls of the same held key within the 200 ms debounce window of its
acceptance leave the keyboard state fixed — no re-acceptance. -/
theorem keyboardRun_hold :
    ∀ (k t0 c : Nat) (rest : List (Nat × Nat)),
      (∀ x ∈ rest, x.2 = k ∧ t0 ≤ x.1 ∧ x.1 < t0 + 200) →
      rest.foldl keyboardPoll ⟨k, t0, c⟩ = ⟨k, t0, c⟩
  | _, _, _, [], _ => rfl
  | k, t0, c, a :: as, h => by
    obtain ⟨t, key⟩ := a
    obtain ⟨hkey, ht0, ht200⟩ := h (t, key) (List.mem_cons_self _ _)
    dsimp only at hkey ht0 ht200
    rw [List.foldl_cons, hkey, keyboardPoll_held k t0 c t ht0 ht200]
    exact keyboardRun_hold k t0 c as (fun x hx => h x (List.mem_cons_of_mem _ hx))

/-- Idle polls never change the dispatch count. -/
theorem keyboardRun_post :
    ∀ (post : List (Nat × Nat)) (s : KeyboardState), (∀ x ∈ post, x.2 = 0) →
      (post.foldl keyboardPoll s).dispatchCount = s.dispatchCount
  | [], _, _ => rfl
  | a :: as, s, h => by
    obtain ⟨t, key⟩ := a
    have hkey : key = 0 := h (t, key) (List.mem_cons_self _ _)
    subst hkey
    rw [List.foldl_cons]
    have hrec := keyboardRun_post as (keyboardPoll s (t, 0))
      (fun x hx => h x (List.mem_cons_of_mem _ hx))
    rw [hrec]
    rcases keyboardPoll_nokey s t with he | he <;> rw [he]

/-- C7: a single key `k` reported by the keypad only during a span shorter
than the 200 ms debounce window (polls at least 50 ms apart, idle before and
after) produces exactly one command dispatch: the first poll seeing `k`
accepts it, and every later poll of the still-held key falls inside the
debounce window and is not re-accepted. -/
theorem keyboard_debounce_single_dispatch
    (pre press post : List (Nat × Nat)) (k t0 : Nat) (rest : List (Nat × Nat))
    (hk : k ≠ 0)
    (hpress0 : press = (t0, k) :: rest)
    (hpre : ∀ x ∈ pre, x.2 = 0)
    (hpost : ∀ x ∈ post, x.2 = 0)
    (hpress : ∀ x ∈ press, x.2 = k ∧ t0 ≤ x.1 ∧ x.1 < t0 + 200)
    (hspace : List.Chain' (fun a b : Nat × Nat => a.1 + 50 ≤ b.1) (pre ++ press ++ post)) :
    (keyboardRun (pre ++ press ++ post)).dispatchCount = 1 := by
  subst hpress0
  unfold keyboardRun
  rw [List.foldl_append, List.foldl_append, keyboardRun_pre pre hpre]
  rw [List.foldl_cons, keyboardPoll_accept k t0 hk]
  rw [keyboardRun_hold k t0 1 rest (fun x hx => hpress x (List.mem_cons_of_mem _ hx))]
  exact keyboardRun_post post ⟨k, t0, 1⟩ hpost

/-- Witness for C7: key 66 (`'B'`) seen at the 50/100/150 ms polls with idle
polls around it yields exactly one dispatch. -/
theorem keyboard_debounce_single_dispatch_witness :
    (keyboardRun [(0, 0), (50, 66), (100, 66), (150, 66), (200, 0), (250, 0)]).dispatchCount
      = 1 :=
  keyboard_debounce_single_dispatch [(0, 0)] [(50, 66), (100, 66), (150, 66)]
    [(200, 0), (250, 0)] 66 50 [(100, 66), (150, 66)]
    (by decide) rfl (by decide) (by decide) (by decide)
    (by norm_num [List.chain'_cons])
